import Mathlib

/-!
Verification of the Excel translation pipeline (src/main.py).

The program is a linear pipeline: duplicate the workbook, then for each
sheet capture layout metadata, unmerge the target, collect-and-translate
unique non-blank string cell values into a per-sheet cache, apply cached
translations cell by cell, restore merges and dimensions, and save.

The shallow embedding below models:
  * cell values and the merged-cell placeholder (openpyxl MergedCell);
  * the per-sheet translation cache as an insertion-ordered association
    list (Python dict semantics for `in` and `.get`);
  * the collect pass (main.py lines 116-127) and the apply pass
    (lines 131-147), the latter as an explicit list of writes
    (position, value) performed on the target sheet;
  * `safe_translate` (lines 25-37), with the remote translator modelled
    as a function from attempt index to `Option String` (`none` means
    the call raised); the outcome records the returned text, the number
    of remote invocations, the ordered list of sleep durations, and
    whether the exhaustion warning was printed;
  * the structural snapshot (lines 89-98) over dimension records that
    carry an optional width/height (openpyxl dimension objects exist
    independently of whether a width/height is set);
  * restoration of merges (lines 151-155, each re-merge guarded by
    try/except) and of dimensions (lines 159-164);
  * the job-level error handler (lines 173-183): any exception during
    sheet processing aborts the job and the output file is removed.
-/

namespace Translate

/-- Possible values of a (non-merged) spreadsheet cell: text, numbers,
dates, booleans, or empty. -/
inductive CellValue where
  | str : String → CellValue
  | int : Int → CellValue
  | date : Nat → CellValue
  | boolean : Bool → CellValue
  | empty : CellValue
deriving DecidableEq

/-- A cell of the source sheet: either a merged-range member placeholder
(openpyxl MergedCell, skipped by both passes) or an ordinary/anchor cell
carrying a value. -/
inductive Cell where
  | merged : Cell
  | normal : CellValue → Cell
deriving DecidableEq

/-- Python `isinstance(value, str) and value.strip()`: truthiness of
the stripped string, i.e. the string contains at least one
non-whitespace character. -/
def hasText (s : String) : Bool := s.data.any (fun c => !c.isWhitespace)

/-- Truth of `isinstance(value, str) and value.strip()` on a cell value. -/
def needsTranslation : CellValue → Bool
  | .str s => hasText s
  | _ => false

/-- Python dict lookup (`translations.get(value)`), on the cache as an
insertion-ordered association list. -/
def lookupT (k : String) : List (String × String) → Option String
  | [] => none
  | (k0, v) :: rest => if k0 = k then some v else lookupT k rest

/-- Keys of the cache, in insertion order. -/
def keysT (cache : List (String × String)) : List String :=
  cache.map Prod.fst

/-- One step of the collect pass (main.py lines 117-127) on the pair
(translations dict, log of arguments passed to safe_translate): a
MergedCell is skipped; a string value with non-whitespace content that
is not yet a key is translated and inserted; everything else leaves the
state unchanged. -/
def collectStep (tr : String → String)
    (acc : List (String × String) × List String) (c : Cell) :
    List (String × String) × List String :=
  match c with
  | .merged => acc
  | .normal v =>
    match v with
    | .str s =>
      if hasText s then
        match lookupT s acc.1 with
        | some _ => acc
        | none => (acc.1 ++ [(s, tr s)], acc.2 ++ [s])
      else acc
    | _ => acc

/-- Collect pass over a flat list of cells. -/
def collectCells (tr : String → String)
    (acc : List (String × String) × List String) (cells : List Cell) :
    List (String × String) × List String :=
  cells.foldl (collectStep tr) acc

/-- Collect pass over a sheet: rows in order, cells of each row in order
(row-major enumeration of `ws_source.rows`), starting from the fresh
per-sheet dict `translations = {}` (main.py line 105). -/
def collectSheet (tr : String → String) (rows : List (List Cell)) :
    List (String × String) × List String :=
  rows.foldl (fun acc row => collectCells tr acc row) ([], [])

/-- The per-sheet translation cache after the collect pass. -/
def sheetCache (tr : String → String) (rows : List (List Cell)) :
    List (String × String) :=
  (collectSheet tr rows).1

/-- The ordered log of arguments passed to safe_translate while
processing one sheet. -/
def sheetLog (tr : String → String) (rows : List (List Cell)) :
    List String :=
  (collectSheet tr rows).2

/-- The concatenated safe_translate call log of a whole job (one cache
per sheet, created fresh at main.py line 105). -/
def jobLog (tr : String → String) (sheets : List (List (List Cell))) :
    List String :=
  (sheets.map (sheetLog tr)).flatten

/-- The value written to the target cell for a given source value
(main.py lines 140-144): a string with non-whitespace content becomes
`translations.get(value, value)`; every other value is copied verbatim. -/
def applyValue (cache : List (String × String)) (v : CellValue) : CellValue :=
  match v with
  | .str s =>
    if hasText s then .str ((lookupT s cache).getD s) else .str s
  | v => v

/-- Apply pass over one row, starting at column index `j`: MergedCells
are skipped, every other cell produces a write to the identical
(row, column) coordinate of the target sheet (main.py lines 132-147). -/
def applyRowFrom (cache : List (String × String)) (i : Nat) :
    Nat → List Cell → List ((Nat × Nat) × CellValue)
  | _, [] => []
  | j, Cell.merged :: cs => applyRowFrom cache i (j + 1) cs
  | j, Cell.normal v :: cs =>
    ((i, j), applyValue cache v) :: applyRowFrom cache i (j + 1) cs

/-- Apply pass over the rows of a sheet, starting at row index `i`. -/
def applyRowsFrom (cache : List (String × String)) :
    Nat → List (List Cell) → List ((Nat × Nat) × CellValue)
  | _, [] => []
  | i, r :: rs => applyRowFrom cache i 0 r ++ applyRowsFrom cache (i + 1) rs

/-- The ordered list of writes the apply pass performs on the target
sheet (main.py lines 131-147). -/
def applySheet (cache : List (String × String)) (rows : List (List Cell)) :
    List ((Nat × Nat) × CellValue) :=
  applyRowsFrom cache 0 rows

/-- The cell of the source sheet at a (row index, column index)
coordinate. -/
def cellAt (rows : List (List Cell)) (p : Nat × Nat) : Option Cell :=
  (rows[p.1]?).bind (fun r => r[p.2]?)

/-- The non-blank string values of a sheet's non-merged cells, in
row-major order with repetitions. -/
def cellText : Cell → Option String
  | .normal (.str s) => if hasText s then some s else none
  | _ => none

/-- All non-blank string values occurring in non-merged cells of the
sheet, row-major, with repetitions. -/
def sheetTexts (rows : List (List Cell)) : List String :=
  (rows.map (fun r => r.filterMap cellText)).flatten

/-- Crude predicate for the MergedCell skip check (`isinstance(cell,
MergedCell)`). -/
def isMerged : Cell → Bool
  | .merged => true
  | .normal _ => false

/-- Observable outcome of one safe_translate call: the string returned
to the caller, the number of remote translator invocations, the ordered
durations of the time.sleep calls performed, and whether the exhaustion
warning was printed. The function type being total (no Except in the
result) reflects that safe_translate lets no exception propagate. -/
structure TransOutcome where
  result : String
  attempts : Nat
  sleeps : List Nat
  warned : Bool
deriving DecidableEq

/-- Body of the retry loop of safe_translate (main.py lines 27-36),
recursing on the remaining iteration count of `range(max_retries)`.
`translator k` is the outcome of the remote call on attempt index `k`
(`none` means the call raised). On success the code sleeps `delay` and
returns the translated text; on the last attempt's failure it warns and
returns the input text; on an earlier failure it sleeps
`delay * (attempt + 1)` and retries. The fuel-zero case is the
`return text` after the loop (main.py line 37), reached only when the
loop runs zero iterations. -/
def safe_translateGo (translator : Nat → Option String) (text : String)
    (delay : Nat) : Nat → Nat → TransOutcome
  | _, 0 => ⟨text, 0, [], false⟩
  | attempt, fuel + 1 =>
    match translator attempt with
    | some translated => ⟨translated, 1, [delay], false⟩
    | none =>
      if fuel = 0 then ⟨text, 1, [], true⟩
      else
        let rest := safe_translateGo translator text delay (attempt + 1) fuel
        ⟨rest.result, rest.attempts + 1,
          delay * (attempt + 1) :: rest.sleeps, rest.warned⟩

/-- Model of safe_translate (main.py lines 25-37). `max_retries` is an
integer (Python allows non-positive values, in which case
`range(max_retries)` is empty); in the source its default is 3 and the
default delay is 1. -/
def safe_translate (translator : Nat → Option String) (text : String)
    (max_retries : Int) (delay : Nat) : TransOutcome :=
  safe_translateGo translator text delay 0 max_retries.toNat

/-- An openpyxl ColumnDimension record: a column may have a dimension
entry (e.g. because it is hidden or styled) whose width is nonetheless
unset (None). The width type is abstract. -/
structure ColDim (W : Type) where
  width : Option W
  hidden : Bool
deriving DecidableEq

/-- An openpyxl RowDimension record, analogous to `ColDim`. -/
structure RowDim (H : Type) where
  height : Option H
  hidden : Bool
deriving DecidableEq

/-- Structural snapshot of column widths (main.py lines 90-91): the dict
comprehension maps every column that has a dimension record to that
record's width, which may itself be None. -/
def captureColumnWidths {W : Type} (dims : List (String × ColDim W)) :
    List (String × Option W) :=
  dims.map (fun p => (p.1, p.2.width))

/-- Structural snapshot of row heights (main.py lines 92-93). -/
def captureRowHeights {H : Type} (dims : List (Nat × RowDim H)) :
    List (Nat × Option H) :=
  dims.map (fun p => (p.1, p.2.height))

/-- Shared shape of the two dimension-restoration loops (main.py
lines 159-164): iterate the captured mapping in order and, for each
entry whose value is not None, set the target dimension. The target's
dimensions are modelled as a total function from identifier to optional
value. -/
def restoreDims {K A : Type} [DecidableEq K] (captured : List (K × Option A))
    (tgt : K → Option A) : K → Option A :=
  captured.foldl
    (fun f p =>
      match p.2 with
      | none => f
      | some w => fun c => if c = p.1 then some w else f c)
    tgt

/-- Restoration of column widths (main.py lines 159-161). -/
def restoreWidths {W : Type} (captured : List (String × Option W))
    (tgt : String → Option W) : String → Option W :=
  restoreDims captured tgt

/-- Restoration of row heights (main.py lines 162-164). -/
def restoreHeights {H : Type} (captured : List (Nat × Option H))
    (tgt : Nat → Option H) : Nat → Option H :=
  restoreDims captured tgt

/-- Restoration of merged ranges (main.py lines 151-155). The target
starts with no merges (every range was unmerged at lines 101-102); each
captured range is re-applied in captured order inside try/except:
`fails r = true` means `ws_target.merge_cells r` raised, in which case a
warning is printed and the range is skipped. The result is the target
sheet's final list of merged ranges. -/
def restoreMerges (fails : String → Bool) : List String → List String
  | [] => []
  | r :: rs =>
    if fails r then restoreMerges fails rs else r :: restoreMerges fails rs

/-- Per-sheet processing abstracted to its fallible effect: phases B-F
for one sheet either complete or raise (modelled as `Except`). -/
def processAllSheets {S E : Type} (step : S → Except E Unit) :
    List S → Except E Unit
  | [] => Except.ok ()
  | s :: ss =>
    match step s with
    | Except.ok _ => processAllSheets step ss
    | Except.error e => Except.error e

/-- The job-level exception handler (main.py lines 173-183): on success
the output file is left as saved; on any exception reaching the handler
the output file is removed, so it no longer exists. -/
def cleanupOnError {E : Type} (outcome : Except E Unit)
    (outputExists : Bool) : Bool :=
  match outcome with
  | Except.ok _ => outputExists
  | Except.error _ => false

/-- Whether the output file exists after the sheet loop of
translate_excel runs under the job-level handler (main.py lines 74-183),
given the per-sheet effect and whether the output file existed (it does,
having been created by the copy at line 61, and re-saved each sheet). -/
def translateJobOutput {S E : Type} (step : S → Except E Unit)
    (sheets : List S) (outputExists : Bool) : Bool :=
  cleanupOnError (processAllSheets step sheets) outputExists

/-! Helper lemmas about the retry loop of safe_translate. -/

/-- Unfolding: a successful remote call returns the translated text
after a single sleep of `delay`. -/
theorem safe_translateGo_some (translator : Nat → Option String)
    (t text : String) (delay attempt fuel : Nat)
    (h : translator attempt = some t) :
    safe_translateGo translator text delay attempt (fuel + 1) =
      ⟨t, 1, [delay], false⟩ := by
  simp [safe_translateGo, h]

/-- Unfolding: a raising remote call on the last attempt warns and
returns the input text without sleeping. -/
theorem safe_translateGo_none_last (translator : Nat → Option String)
    (text : String) (delay attempt : Nat)
    (h : translator attempt = none) :
    safe_translateGo translator text delay attempt 1 = ⟨text, 1, [], true⟩ := by
  simp [safe_translateGo, h]

/-- Unfolding: a raising remote call with retries remaining sleeps the
linear backoff `delay * (attempt + 1)` and retries. -/
theorem safe_translateGo_none_step (translator : Nat → Option String)
    (text : String) (delay attempt fuel : Nat)
    (h : translator attempt = none) (hf : fuel ≠ 0) :
    safe_translateGo translator text delay attempt (fuel + 1) =
      ⟨(safe_translateGo translator text delay (attempt + 1) fuel).result,
        (safe_translateGo translator text delay (attempt + 1) fuel).attempts + 1,
        delay * (attempt + 1) ::
          (safe_translateGo translator text delay (attempt + 1) fuel).sleeps,
        (safe_translateGo translator text delay (attempt + 1) fuel).warned⟩ := by
  simp [safe_translateGo, h, hf]

/-- When every remote attempt raises, the loop runs all its iterations,
warns, and falls back to the input text. -/
theorem safe_translateGo_all_fail (translator : Nat → Option String)
    (text : String) (delay : Nat) (hf : ∀ k, translator k = none) :
    ∀ fuel, 0 < fuel → ∀ attempt,
      (safe_translateGo translator text delay attempt fuel).result = text ∧
      (safe_translateGo translator text delay attempt fuel).attempts = fuel ∧
      (safe_translateGo translator text delay attempt fuel).warned = true := by
  intro fuel
  induction fuel with
  | zero => intro h; exact absurd h (by omega)
  | succ f ih =>
    intro _ attempt
    cases f with
    | zero =>
      rw [safe_translateGo_none_last translator text delay attempt (hf attempt)]
      exact ⟨rfl, rfl, rfl⟩
    | succ f2 =>
      have ih2 := ih (by omega) (attempt + 1)
      rw [safe_translateGo_none_step translator text delay attempt (f2 + 1)
        (hf attempt) (Nat.succ_ne_zero f2)]
      refine ⟨ih2.1, ?_, ih2.2.2⟩
      have h3 := ih2.2.1
      simp only []
      omega

/-- When the first `j` attempts raise and attempt `j` succeeds (with
`j` within the retry budget), the loop makes `j + 1` remote calls,
sleeps the linear backoff `delay * (attempt + 1)` after each failure and
the flat `delay` after the success, and returns the translated text. -/
theorem safe_translateGo_succeeds (translator : Nat → Option String)
    (t text : String) (delay : Nat) :
    ∀ j attempt fuel, j < fuel →
      (∀ k, k < j → translator (attempt + k) = none) →
      translator (attempt + j) = some t →
      safe_translateGo translator text delay attempt fuel =
        ⟨t, j + 1, (List.range j).map (fun k => delay * (attempt + k + 1)) ++ [delay],
          false⟩ := by
  intro j
  induction j with
  | zero =>
    intro attempt fuel hfu _ hsucc
    cases fuel with
    | zero => omega
    | succ f =>
      simp only [Nat.add_zero] at hsucc
      rw [safe_translateGo_some translator t text delay attempt f hsucc]
      simp
  | succ j ih =>
    intro attempt fuel hfu hfail hsucc
    cases fuel with
    | zero => omega
    | succ f =>
      cases f with
      | zero => omega
      | succ f2 =>
        have h0 : translator attempt = none := by
          have h00 := hfail 0 (by omega)
          simpa using h00
        have ih2 := ih (attempt + 1) (f2 + 1) (by omega)
          (fun k hk => by
            have hk2 := hfail (k + 1) (by omega)
            rwa [show attempt + (k + 1) = attempt + 1 + k by omega] at hk2)
          (by rwa [show attempt + (j + 1) = attempt + 1 + j by omega] at hsucc)
        rw [safe_translateGo_none_step translator text delay attempt (f2 + 1)
          h0 (Nat.succ_ne_zero f2), ih2]
        rw [List.range_succ_eq_map]
        simp only [List.map_cons, List.map_map, List.cons_append]
        have harith : ((fun k => delay * (attempt + k + 1)) ∘ Nat.succ) =
            (fun k => delay * (attempt + 1 + k + 1)) := by
          funext k
          simp only [Function.comp, Nat.succ_eq_add_one]
          ring
        rw [harith]

/-! Helper lemmas about the per-sheet translation cache. -/

/-- Failed lookup means the key is absent from the dict. -/
theorem lookupT_eq_none (k : String) :
    ∀ cache : List (String × String), lookupT k cache = none ↔ k ∉ keysT cache := by
  intro cache
  induction cache with
  | nil => simp [lookupT, keysT]
  | cons p rest ih =>
    obtain ⟨k0, v⟩ := p
    by_cases h : k0 = k
    · subst h
      simp [lookupT, keysT]
    · simp [lookupT, keysT, h, Ne.symm h] at ih ⊢
      simpa [keysT] using ih

/-- Successful lookup returns a stored entry. -/
theorem lookupT_mem (k v : String) :
    ∀ cache : List (String × String), lookupT k cache = some v → (k, v) ∈ cache := by
  intro cache
  induction cache with
  | nil => simp [lookupT]
  | cons p rest ih =>
    obtain ⟨k0, w⟩ := p
    simp only [lookupT]
    by_cases h : k0 = k
    · subst h
      rw [if_pos rfl]
      intro h2
      simp only [Option.some_inj] at h2
      subst h2
      exact List.mem_cons_self _ _
    · rw [if_neg h]
      intro h2
      exact List.mem_cons_of_mem _ (ih h2)

/-- Successful lookup means the key is present in the dict. -/
theorem lookupT_some_mem_keys (k v : String)
    (cache : List (String × String)) (h : lookupT k cache = some v) :
    k ∈ keysT cache := by
  by_contra hk
  rw [← lookupT_eq_none] at hk
  rw [h] at hk
  exact Option.noConfusion hk

/-- The collect step, reformulated through `cellText`: cells providing
no non-blank string value leave the state untouched; a cache hit leaves
it untouched; a cache miss appends the new translation to the dict and
the value to the call log. -/
theorem collectStep_eq (tr : String → String)
    (acc : List (String × String) × List String) (c : Cell) :
    collectStep tr acc c =
      match cellText c with
      | none => acc
      | some s =>
        match lookupT s acc.1 with
        | some _ => acc
        | none => (acc.1 ++ [(s, tr s)], acc.2 ++ [s]) := by
  cases c with
  | merged => rfl
  | normal v =>
    cases v with
    | str s =>
      by_cases h : hasText s = true
      · simp [collectStep, cellText, h]
      · simp [collectStep, cellText, h]
    | int n => rfl
    | date n => rfl
    | boolean b => rfl
    | empty => rfl

/-- One collect step preserves the invariant that the call log lists
exactly the dict's keys in insertion order. -/
theorem collectStep_keys (tr : String → String)
    (acc : List (String × String) × List String) (c : Cell)
    (h1 : keysT acc.1 = acc.2) :
    keysT (collectStep tr acc c).1 = (collectStep tr acc c).2 := by
  rw [collectStep_eq]
  cases hc : cellText c with
  | none => exact h1
  | some s =>
    dsimp only
    cases hl : lookupT s acc.1 with
    | some w => exact h1
    | none =>
      dsimp only
      simp only [keysT, List.map_append] at h1 ⊢
      simp [h1]

/-- One collect step also preserves distinctness of the call log. -/
theorem collectStep_nodup (tr : String → String)
    (acc : List (String × String) × List String) (c : Cell)
    (h1 : keysT acc.1 = acc.2) (h2 : acc.2.Nodup) :
    (collectStep tr acc c).2.Nodup := by
  rw [collectStep_eq]
  cases hc : cellText c with
  | none => exact h2
  | some s =>
    dsimp only
    cases hl : lookupT s acc.1 with
    | some w => exact h2
    | none =>
      dsimp only
      have hs : s ∉ acc.2 := by
        rw [← h1]
        exact (lookupT_eq_none s acc.1).1 hl
      simp [List.nodup_append, h2, hs]

/-- One collect step only adds entries recording the translation
delivered for their key. -/
theorem collectStep_entries (tr : String → String)
    (acc : List (String × String) × List String) (c : Cell)
    (h : ∀ e ∈ acc.1, e.2 = tr e.1) :
    ∀ e ∈ (collectStep tr acc c).1, e.2 = tr e.1 := by
  rw [collectStep_eq]
  cases hc : cellText c with
  | none => exact h
  | some s =>
    dsimp only
    cases hl : lookupT s acc.1 with
    | some w => exact h
    | none =>
      dsimp only
      intro e he
      simp only [List.mem_append, List.mem_singleton] at he
      cases he with
      | inl h3 => exact h e h3
      | inr h3 => subst h3; rfl

/-- Membership in the call log after one collect step. -/
theorem collectStep_log_mem (tr : String → String)
    (acc : List (String × String) × List String) (c : Cell)
    (h1 : keysT acc.1 = acc.2) (v : String) :
    v ∈ (collectStep tr acc c).2 ↔
      v ∈ acc.2 ∨ cellText c = some v := by
  rw [collectStep_eq]
  cases hc : cellText c with
  | none => simp
  | some s =>
    dsimp only
    cases hl : lookupT s acc.1 with
    | some w =>
      dsimp only
      have hs : s ∈ acc.2 := by
        rw [← h1]; exact lookupT_some_mem_keys s w acc.1 hl
      simp only [Option.some_inj]
      constructor
      · intro hv; exact Or.inl hv
      · intro hv
        cases hv with
        | inl hv => exact hv
        | inr hv => subst hv; exact hs
    | none =>
      dsimp only
      simp only [List.mem_append, List.mem_singleton, Option.some_inj]
      constructor
      · intro hv
        cases hv with
        | inl hv => exact Or.inl hv
        | inr hv => exact Or.inr hv.symm
      · intro hv
        cases hv with
        | inl hv => exact Or.inl hv
        | inr hv => exact Or.inr hv.symm

/-- Unfolding the collect fold over a cons. -/
theorem collectCells_cons (tr : String → String)
    (acc : List (String × String) × List String) (c : Cell) (cs : List Cell) :
    collectCells tr acc (c :: cs) = collectCells tr (collectStep tr acc c) cs := rfl

/-- The collect fold over an append runs the two parts in sequence. -/
theorem collectCells_append (tr : String → String)
    (acc : List (String × String) × List String) (l1 l2 : List Cell) :
    collectCells tr acc (l1 ++ l2) = collectCells tr (collectCells tr acc l1) l2 :=
  List.foldl_append _ _ _ _

/-- After the collect pass, the call log lists exactly the dict's keys
in insertion order. -/
theorem collectCells_keys (tr : String → String) (cells : List Cell) :
    ∀ acc, keysT acc.1 = acc.2 →
      keysT (collectCells tr acc cells).1 = (collectCells tr acc cells).2 := by
  induction cells with
  | nil => intro acc h; exact h
  | cons c cs ih => intro acc h; exact ih _ (collectStep_keys tr acc c h)

/-- The call log of the collect pass has no duplicates. -/
theorem collectCells_nodup (tr : String → String) (cells : List Cell) :
    ∀ acc, keysT acc.1 = acc.2 → acc.2.Nodup →
      (collectCells tr acc cells).2.Nodup := by
  induction cells with
  | nil => intro acc _ h2; exact h2
  | cons c cs ih =>
    intro acc h1 h2
    exact ih _ (collectStep_keys tr acc c h1) (collectStep_nodup tr acc c h1 h2)

/-- Every entry of the collected dict stores the translation of its
key. -/
theorem collectCells_entries (tr : String → String) (cells : List Cell) :
    ∀ acc, (∀ e ∈ acc.1, e.2 = tr e.1) →
      ∀ e ∈ (collectCells tr acc cells).1, e.2 = tr e.1 := by
  induction cells with
  | nil => intro acc h; exact h
  | cons c cs ih => intro acc h; exact ih _ (collectStep_entries tr acc c h)

/-- Membership in the collect pass's call log. -/
theorem collectCells_log_mem (tr : String → String) (cells : List Cell) :
    ∀ acc, keysT acc.1 = acc.2 → ∀ v,
      v ∈ (collectCells tr acc cells).2 ↔
        v ∈ acc.2 ∨ v ∈ cells.filterMap cellText := by
  induction cells with
  | nil => intro acc _ v; simp [collectCells]
  | cons c cs ih =>
    intro acc h v
    rw [collectCells_cons, ih _ (collectStep_keys tr acc c h) v,
      collectStep_log_mem tr acc c h v, List.filterMap_cons]
    cases hc : cellText c with
    | none => simp
    | some s =>
      dsimp only
      simp only [List.mem_cons, Option.some_inj]
      tauto

/-- The row-major nested fold of the collect pass equals the fold over
the flattened cell list. -/
theorem collectSheet_eq_flatten (tr : String → String) (rows : List (List Cell)) :
    collectSheet tr rows = collectCells tr ([], []) rows.flatten := by
  suffices h : ∀ acc, rows.foldl (fun a row => collectCells tr a row) acc =
      collectCells tr acc rows.flatten from h ([], [])
  induction rows with
  | nil => intro acc; rfl
  | cons r rs ih =>
    intro acc
    simp only [List.foldl_cons, List.flatten_cons]
    rw [collectCells_append]
    exact ih _

/-- The sheet's non-blank string values, as a filterMap over the
flattened cell list. -/
theorem sheetTexts_eq (rows : List (List Cell)) :
    sheetTexts rows = rows.flatten.filterMap cellText := by
  simp [sheetTexts, List.filterMap_flatten]

/-- The per-sheet call log lists exactly the cache's keys. -/
theorem sheetKeys_eq_log (tr : String → String) (rows : List (List Cell)) :
    keysT (sheetCache tr rows) = sheetLog tr rows := by
  unfold sheetCache sheetLog
  rw [collectSheet_eq_flatten]
  exact collectCells_keys tr _ ([], []) rfl

/-- The per-sheet call log has no duplicates: no value is sent to the
translator twice within one sheet. -/
theorem sheetLog_nodup (tr : String → String) (rows : List (List Cell)) :
    (sheetLog tr rows).Nodup := by
  unfold sheetLog
  rw [collectSheet_eq_flatten]
  exact collectCells_nodup tr _ ([], []) rfl List.nodup_nil

/-- Every entry of the per-sheet cache stores the translation of its
key. -/
theorem sheetCache_entries (tr : String → String) (rows : List (List Cell)) :
    ∀ e ∈ sheetCache tr rows, e.2 = tr e.1 := by
  unfold sheetCache
  rw [collectSheet_eq_flatten]
  exact collectCells_entries tr _ ([], []) (by simp)

/-- A value is sent to the translator exactly when it occurs as a
non-blank string in a non-merged cell of the sheet. -/
theorem sheetLog_mem (tr : String → String) (rows : List (List Cell))
    (v : String) : v ∈ sheetLog tr rows ↔ v ∈ sheetTexts rows := by
  unfold sheetLog
  rw [collectSheet_eq_flatten, sheetTexts_eq]
  have h := collectCells_log_mem tr rows.flatten ([], []) rfl v
  simpa using h

/-- Each value occurring in a sheet appears exactly once in that
sheet's translator call log. -/
theorem sheetLog_count (tr : String → String) (rows : List (List Cell))
    (v : String) (hv : v ∈ sheetTexts rows) :
    (sheetLog tr rows).count v = 1 :=
  List.count_eq_one_of_mem (sheetLog_nodup tr rows)
    ((sheetLog_mem tr rows v).2 hv)

/-- Each value occurring in a sheet is cached with its translation. -/
theorem sheetCache_lookup (tr : String → String) (rows : List (List Cell))
    (v : String) (hv : v ∈ sheetTexts rows) :
    lookupT v (sheetCache tr rows) = some (tr v) := by
  have hkeys : v ∈ keysT (sheetCache tr rows) := by
    rw [sheetKeys_eq_log]
    exact (sheetLog_mem tr rows v).2 hv
  cases hl : lookupT v (sheetCache tr rows) with
  | none => exact absurd hkeys ((lookupT_eq_none v _).1 hl)
  | some w =>
    have hw := lookupT_mem v w _ hl
    have he := sheetCache_entries tr rows (v, w) hw
    simp only at he
    rw [he]

/-- Across a job, a value occurring in every sheet is sent to the
translator once per sheet. -/
theorem jobLog_count (tr : String → String) (v : String) :
    ∀ sheets : List (List (List Cell)),
      (∀ rs ∈ sheets, v ∈ sheetTexts rs) →
      (jobLog tr sheets).count v = sheets.length := by
  intro sheets
  induction sheets with
  | nil => intro _; rfl
  | cons rs rest ih =>
    intro h
    simp only [jobLog, List.map_cons, List.flatten_cons, List.count_append]
    have h1 := sheetLog_count tr rs v (h rs (List.mem_cons_self _ _))
    have h2 := ih (fun r hr => h r (List.mem_cons_of_mem _ hr))
    simp only [jobLog] at h2
    rw [h1, h2, List.length_cons]
    omega

/-! Helper lemmas about the apply pass. -/

/-- Every write produced while traversing one row comes from a
non-merged cell of that row, at the traversal's row index, at a column
index at or beyond the starting offset, and carries the value the pass
computes for the cell found there. -/
theorem applyRowFrom_mem (cache : List (String × String)) (i : Nat) :
    ∀ (cs : List Cell) (j0 : Nat) (w : (Nat × Nat) × CellValue),
      w ∈ applyRowFrom cache i j0 cs →
      w.1.1 = i ∧ j0 ≤ w.1.2 ∧
        ∃ v, cs[w.1.2 - j0]? = some (Cell.normal v) ∧
          w.2 = applyValue cache v := by
  intro cs
  induction cs with
  | nil => intro j0 w hw; simp [applyRowFrom] at hw
  | cons c cs ih =>
    intro j0 w hw
    cases c with
    | merged =>
      have h := ih (j0 + 1) w (by simpa [applyRowFrom] using hw)
      obtain ⟨h1, h2, v, h3, h4⟩ := h
      refine ⟨h1, by omega, v, ?_, h4⟩
      rw [show w.1.2 - j0 = (w.1.2 - (j0 + 1)) + 1 by omega]
      simpa using h3
    | normal v0 =>
      simp only [applyRowFrom] at hw
      rcases List.mem_cons.1 hw with h | h
      · subst h
        exact ⟨rfl, le_refl _, v0, by simp, rfl⟩
      · have h' := ih (j0 + 1) w h
        obtain ⟨h1, h2, v, h3, h4⟩ := h'
        refine ⟨h1, by omega, v, ?_, h4⟩
        rw [show w.1.2 - j0 = (w.1.2 - (j0 + 1)) + 1 by omega]
        simpa using h3

/-- Conversely, every non-merged cell of a row produces its write at
its own coordinate. -/
theorem applyRowFrom_mem_of (cache : List (String × String)) (i : Nat) :
    ∀ (cs : List Cell) (j0 b : Nat) (v : CellValue),
      cs[b]? = some (Cell.normal v) →
      ((i, j0 + b), applyValue cache v) ∈ applyRowFrom cache i j0 cs := by
  intro cs
  induction cs with
  | nil => intro j0 b v h; simp at h
  | cons c cs ih =>
    intro j0 b v h
    cases b with
    | zero =>
      simp only [List.getElem?_cons_zero, Option.some_inj] at h
      subst h
      simp [applyRowFrom]
    | succ b =>
      simp only [List.getElem?_cons_succ] at h
      cases c with
      | merged =>
        have h' := ih (j0 + 1) b v h
        rw [show j0 + (b + 1) = j0 + 1 + b by omega]
        simpa [applyRowFrom] using h'
      | normal v0 =>
        have h' := ih (j0 + 1) b v h
        rw [show j0 + (b + 1) = j0 + 1 + b by omega]
        simp only [applyRowFrom]
        exact List.mem_cons_of_mem _ h'

/-- Every write of the apply pass comes from a non-merged source cell
at the write's own coordinate, and carries the value the pass computes
for that cell. -/
theorem applyRowsFrom_mem (cache : List (String × String)) :
    ∀ (rows : List (List Cell)) (i0 : Nat) (w : (Nat × Nat) × CellValue),
      w ∈ applyRowsFrom cache i0 rows →
      i0 ≤ w.1.1 ∧
        ∃ row v, rows[w.1.1 - i0]? = some row ∧
          row[w.1.2]? = some (Cell.normal v) ∧ w.2 = applyValue cache v := by
  intro rows
  induction rows with
  | nil => intro i0 w hw; simp [applyRowsFrom] at hw
  | cons r rs ih =>
    intro i0 w hw
    simp only [applyRowsFrom, List.mem_append] at hw
    cases hw with
    | inl hw =>
      obtain ⟨h1, _, v, h3, h4⟩ := applyRowFrom_mem cache i0 r 0 w hw
      refine ⟨by omega, r, v, ?_, by simpa using h3, h4⟩
      rw [show w.1.1 - i0 = 0 by omega]
      simp
    | inr hw =>
      obtain ⟨h1, row, v, h3, h4, h5⟩ := ih (i0 + 1) w hw
      refine ⟨by omega, row, v, ?_, h4, h5⟩
      rw [show w.1.1 - i0 = (w.1.1 - (i0 + 1)) + 1 by omega]
      simpa using h3

/-- Conversely, every non-merged cell of the sheet produces its write
at its own coordinate. -/
theorem applyRowsFrom_mem_of (cache : List (String × String)) :
    ∀ (rows : List (List Cell)) (i0 a b : Nat) (row : List Cell) (v : CellValue),
      rows[a]? = some row → row[b]? = some (Cell.normal v) →
      ((i0 + a, b), applyValue cache v) ∈ applyRowsFrom cache i0 rows := by
  intro rows
  induction rows with
  | nil => intro i0 a b row v h1 _; simp at h1
  | cons r rs ih =>
    intro i0 a b row v h1 h2
    simp only [applyRowsFrom, List.mem_append]
    cases a with
    | zero =>
      simp only [List.getElem?_cons_zero, Option.some_inj] at h1
      rw [← h1] at h2
      left
      have h := applyRowFrom_mem_of cache i0 r 0 b v h2
      simpa using h
    | succ a =>
      simp only [List.getElem?_cons_succ] at h1
      right
      have h := ih (i0 + 1) a b row v h1 h2
      rw [show i0 + (a + 1) = i0 + 1 + a by omega]
      exact h

/-- Sheet-level form of `applyRowsFrom_mem`. -/
theorem applySheet_mem (cache : List (String × String))
    (rows : List (List Cell)) (w : (Nat × Nat) × CellValue)
    (hw : w ∈ applySheet cache rows) :
    ∃ v, cellAt rows w.1 = some (Cell.normal v) ∧ w.2 = applyValue cache v := by
  obtain ⟨_, row, v, h1, h2, h3⟩ := applyRowsFrom_mem cache rows 0 w hw
  rw [Nat.sub_zero] at h1
  exact ⟨v, by simp [cellAt, h1, h2], h3⟩

/-- Sheet-level form of `applyRowsFrom_mem_of`. -/
theorem applySheet_mem_of (cache : List (String × String))
    (rows : List (List Cell)) (i j : Nat) (v : CellValue)
    (h : cellAt rows (i, j) = some (Cell.normal v)) :
    ((i, j), applyValue cache v) ∈ applySheet cache rows := by
  rw [cellAt, Option.bind_eq_some] at h
  obtain ⟨row, h1, h2⟩ := h
  have h3 := applyRowsFrom_mem_of cache rows 0 i j row v h1 h2
  simpa [applySheet] using h3

/-- Values that are not non-blank strings are copied verbatim. -/
theorem applyValue_not_string (cache : List (String × String))
    (v : CellValue) (h : needsTranslation v = false) :
    applyValue cache v = v := by
  cases v with
  | str s =>
    simp only [needsTranslation] at h
    simp [applyValue, h]
  | int n => rfl
  | date n => rfl
  | boolean b => rfl
  | empty => rfl

/-- Against a cache whose every entry is a passthrough, string values
are copied verbatim as well. -/
theorem applyValue_passthrough (cache : List (String × String))
    (s : String) (hc : ∀ e ∈ cache, e.2 = e.1) :
    applyValue cache (CellValue.str s) = CellValue.str s := by
  by_cases h : hasText s = true
  · simp only [applyValue, h, if_true]
    cases hl : lookupT s cache with
    | none => rfl
    | some w =>
      have hw := lookupT_mem s w cache hl
      have he := hc (s, w) hw
      simp only at he
      simp [he]
  · simp [applyValue, h]

/-- Collect step of a cell whose value needs no translation. -/
theorem collectStep_not_string (tr : String → String)
    (acc : List (String × String) × List String) (v : CellValue)
    (h : needsTranslation v = false) :
    collectStep tr acc (Cell.normal v) = acc := by
  cases v with
  | str s =>
    simp only [needsTranslation] at h
    simp [collectStep, h]
  | int n => rfl
  | date n => rfl
  | boolean b => rfl
  | empty => rfl

/-- Filtering MergedCells out of a cell list does not change the
collect pass: they are skipped anyway. -/
theorem collectCells_filter_merged (tr : String → String) :
    ∀ (cells : List Cell) (acc : List (String × String) × List String),
      collectCells tr acc (cells.filter (fun c => !(isMerged c))) =
        collectCells tr acc cells := by
  intro cells
  induction cells with
  | nil => intro acc; rfl
  | cons c cs ih =>
    intro acc
    cases c with
    | merged =>
      simp only [List.filter_cons, isMerged, Bool.not_true, if_neg]
      rw [collectCells_cons]
      show collectCells tr acc (cs.filter (fun c => !(isMerged c))) =
        collectCells tr (collectStep tr acc Cell.merged) cs
      exact ih acc
    | normal v =>
      simp only [List.filter_cons, isMerged, Bool.not_false, if_pos]
      rw [collectCells_cons, collectCells_cons]
      exact ih _

/-- Sheet-level form of `collectCells_filter_merged`. -/
theorem collectSheet_filter_merged (tr : String → String)
    (rows : List (List Cell)) :
    collectSheet tr (rows.map (fun r => r.filter (fun c => !(isMerged c)))) =
      collectSheet tr rows := by
  suffices h : ∀ acc,
      (rows.map (fun r => r.filter (fun c => !(isMerged c)))).foldl
        (fun a row => collectCells tr a row) acc =
      rows.foldl (fun a row => collectCells tr a row) acc from h ([], [])
  induction rows with
  | nil => intro acc; rfl
  | cons r rs ih =>
    intro acc
    simp only [List.map_cons, List.foldl_cons]
    rw [collectCells_filter_merged tr r acc]
    exact ih _

/-! Helper lemmas about structure restoration. -/

/-- Unfolding the dimension-restoration fold over a cons. -/
theorem restoreDims_cons {K A : Type} [DecidableEq K]
    (p : K × Option A) (rest : List (K × Option A)) (tgt : K → Option A) :
    restoreDims (p :: rest) tgt =
      restoreDims rest
        (match p.2 with
         | none => tgt
         | some w => fun c => if c = p.1 then some w else tgt c) := rfl

/-- Identifiers absent from the captured mapping keep their target
dimension. -/
theorem restoreDims_not_mem {K A : Type} [DecidableEq K] :
    ∀ (captured : List (K × Option A)) (tgt : K → Option A) (c : K),
      c ∉ captured.map Prod.fst → restoreDims captured tgt c = tgt c := by
  intro captured
  induction captured with
  | nil => intro tgt c _; rfl
  | cons p rest ih =>
    intro tgt c hc
    simp only [List.map_cons, List.mem_cons] at hc
    push_neg at hc
    obtain ⟨hc1, hc2⟩ := hc
    rw [restoreDims_cons]
    cases hp : p.2 with
    | none => exact ih _ c hc2
    | some w =>
      rw [ih _ c hc2]
      simp [hc1]

/-- A captured entry with a set value is restored onto the target. -/
theorem restoreDims_some {K A : Type} [DecidableEq K] :
    ∀ captured : List (K × Option A), (captured.map Prod.fst).Nodup →
      ∀ (tgt : K → Option A) (c : K) (w : A), (c, some w) ∈ captured →
        restoreDims captured tgt c = some w := by
  intro captured
  induction captured with
  | nil => intro _ tgt c w h; simp at h
  | cons p rest ih =>
    obtain ⟨k, ow⟩ := p
    intro hnd tgt c w hm
    simp only [List.map_cons, List.nodup_cons] at hnd
    obtain ⟨hk, hnd2⟩ := hnd
    rw [restoreDims_cons]
    rcases List.mem_cons.1 hm with h | h
    · have hc : c = k := congrArg Prod.fst h
      have ho : ow = some w := congrArg Prod.snd h.symm
      subst hc
      subst ho
      rw [restoreDims_not_mem rest _ c hk]
      simp
    · have hck : c ∈ rest.map Prod.fst :=
        List.mem_map.2 ⟨(c, some w), h, rfl⟩
      exact ih hnd2 _ c w h

/-- A captured entry whose value is unset (None) leaves the target
dimension untouched. -/
theorem restoreDims_none {K A : Type} [DecidableEq K] :
    ∀ captured : List (K × Option A), (captured.map Prod.fst).Nodup →
      ∀ (tgt : K → Option A) (c : K), (c, (none : Option A)) ∈ captured →
        restoreDims captured tgt c = tgt c := by
  intro captured
  induction captured with
  | nil => intro _ tgt c h; simp at h
  | cons p rest ih =>
    obtain ⟨k, ow⟩ := p
    intro hnd tgt c hm
    simp only [List.map_cons, List.nodup_cons] at hnd
    obtain ⟨hk, hnd2⟩ := hnd
    rw [restoreDims_cons]
    rcases List.mem_cons.1 hm with h | h
    · have hc : c = k := congrArg Prod.fst h
      have ho : ow = (none : Option A) := congrArg Prod.snd h.symm
      subst hc
      subst ho
      exact restoreDims_not_mem rest tgt c hk
    · have hck : c ∈ rest.map Prod.fst :=
        List.mem_map.2 ⟨(c, none), h, rfl⟩
      have hckk : c ≠ k := fun hckk => hk (hckk ▸ hck)
      rw [ih hnd2 _ c h]
      cases ow with
      | none => rfl
      | some w => simp [hckk]

/-- The restored merge list is the captured list with the raising
ranges filtered out. -/
theorem restoreMerges_eq_filter (fails : String → Bool) :
    ∀ M : List String, restoreMerges fails M = M.filter (fun r => !(fails r)) := by
  intro M
  induction M with
  | nil => rfl
  | cons r rs ih =>
    by_cases h : fails r = true
    · simp [restoreMerges, h, List.filter_cons, ih]
    · simp only [Bool.not_eq_true] at h
      simp [restoreMerges, h, List.filter_cons, ih]

/-- Capturing column widths keeps exactly the columns that have a
dimension record, in order. -/
theorem captureColumnWidths_keys {W : Type} (dims : List (String × ColDim W)) :
    (captureColumnWidths dims).map Prod.fst = dims.map Prod.fst := by
  simp [captureColumnWidths, List.map_map]

/-- Capturing row heights keeps exactly the rows that have a dimension
record, in order. -/
theorem captureRowHeights_keys {H : Type} (dims : List (Nat × RowDim H)) :
    (captureRowHeights dims).map Prod.fst = dims.map Prod.fst := by
  simp [captureRowHeights, List.map_map]

/-- A failing sheet aborts the whole loop with its error. -/
theorem processAllSheets_abort {S E : Type} (step : S → Except E Unit)
    (e : E) (bad : S) (hb : step bad = Except.error e) :
    ∀ pre post, (∀ s ∈ pre, step s = Except.ok ()) →
      processAllSheets step (pre ++ bad :: post) = Except.error e := by
  intro pre
  induction pre with
  | nil => intro post _; simp [processAllSheets, hb]
  | cons s pre ih =>
    intro post h
    have hs := h s (List.mem_cons_self _ _)
    simp only [List.cons_append, processAllSheets, hs]
    exact ih post (fun x hx => h x (List.mem_cons_of_mem _ hx))

/-- Values extracted by `cellText` have non-whitespace content. -/
theorem cellText_hasText (c : Cell) (v : String) (h : cellText c = some v) :
    hasText v = true := by
  cases c with
  | merged => simp [cellText] at h
  | normal val =>
    cases val with
    | str s =>
      simp only [cellText] at h
      by_cases hs : hasText s = true
      · rw [if_pos hs] at h
        rw [← Option.some_inj.1 h]
        exact hs
      · rw [if_neg hs] at h
        exact Option.noConfusion h
    | int n => simp [cellText] at h
    | date n => simp [cellText] at h
    | boolean b => simp [cellText] at h
    | empty => simp [cellText] at h

/-- Values occurring in a sheet have non-whitespace content. -/
theorem sheetTexts_hasText (rows : List (List Cell)) (v : String)
    (hv : v ∈ sheetTexts rows) : hasText v = true := by
  rw [sheetTexts_eq] at hv
  obtain ⟨c, _, hc⟩ := List.mem_filterMap.1 hv
  exact cellText_hasText c v hc

/-! Claims. -/

/-- C1: for every sheet and every non-blank string value v occurring in
one or more non-merged cells of that sheet, safe_translate is invoked
exactly once with argument v during that sheet's processing (the call
log counts v once); v is cached with its translation, and every
occurrence of v in the sheet receives that same cached translation in
the apply pass; the cache is created fresh per sheet, so a value
occurring in every sheet of a job is sent to the translator once per
sheet. -/
theorem C1_per_sheet_single_invocation (tr : String → String)
    (rows : List (List Cell)) (v : String) (hv : v ∈ sheetTexts rows) :
    (sheetLog tr rows).count v = 1 ∧
    lookupT v (sheetCache tr rows) = some (tr v) ∧
    (∀ i j, cellAt rows (i, j) = some (Cell.normal (CellValue.str v)) →
      ((i, j), CellValue.str (tr v)) ∈ applySheet (sheetCache tr rows) rows) ∧
    (∀ sheets : List (List (List Cell)),
      (∀ rs ∈ sheets, v ∈ sheetTexts rs) →
      (jobLog tr sheets).count v = sheets.length) := by
  refine ⟨sheetLog_count tr rows v hv, sheetCache_lookup tr rows v hv, ?_,
    jobLog_count tr v⟩
  intro i j h
  have h2 := applySheet_mem_of (sheetCache tr rows) rows i j (CellValue.str v) h
  have hvt : hasText v = true := sheetTexts_hasText rows v hv
  have hav : applyValue (sheetCache tr rows) (CellValue.str v) =
      CellValue.str (tr v) := by
    simp only [applyValue]
    rw [if_pos hvt, sheetCache_lookup tr rows v hv]
    rfl
  rwa [hav] at h2

/-- Witness for C1 on a concrete sheet: "Ola" occurs twice among
non-merged cells (plus once under a merged placeholder, which does not
count); it is logged once, both occurrences receive the cached
translation, and a job with that sheet twice logs it twice. -/
theorem C1_per_sheet_single_invocation_instance :
    (sheetLog (fun _ => "X")
      [[Cell.normal (CellValue.str "Ola"), Cell.normal (CellValue.int 42),
        Cell.normal (CellValue.str "Ola")],
       [Cell.merged, Cell.normal (CellValue.str "Hi")]]).count "Ola" = 1 ∧
    ((0, 2), CellValue.str "X") ∈
      applySheet
        (sheetCache (fun _ => "X")
          [[Cell.normal (CellValue.str "Ola"), Cell.normal (CellValue.int 42),
            Cell.normal (CellValue.str "Ola")],
           [Cell.merged, Cell.normal (CellValue.str "Hi")]])
        [[Cell.normal (CellValue.str "Ola"), Cell.normal (CellValue.int 42),
          Cell.normal (CellValue.str "Ola")],
         [Cell.merged, Cell.normal (CellValue.str "Hi")]] ∧
    (jobLog (fun _ => "X")
      [[[Cell.normal (CellValue.str "Ola")]],
       [[Cell.normal (CellValue.str "Ola")]]]).count "Ola" = 2 := by
  have h1 := C1_per_sheet_single_invocation (fun _ => "X")
    [[Cell.normal (CellValue.str "Ola"), Cell.normal (CellValue.int 42),
      Cell.normal (CellValue.str "Ola")],
     [Cell.merged, Cell.normal (CellValue.str "Hi")]] "Ola" (by decide)
  have h2 := C1_per_sheet_single_invocation (fun _ => "X")
    [[Cell.normal (CellValue.str "Ola")]] "Ola" (by decide)
  exact ⟨h1.1, h1.2.2.1 0 2 (by decide),
    h2.2.2.2 [[[Cell.normal (CellValue.str "Ola")]],
      [[Cell.normal (CellValue.str "Ola")]]] (by decide)⟩

/-- C2: no value is ever written to a merged-range-member cell in the
apply phase: every write's coordinate holds a non-merged source cell,
so a coordinate holding a MergedCell never appears among the writes;
and MergedCells are equally skipped by the collect pass (filtering them
out does not change its outcome). -/
theorem C2_merged_members_not_written (tr : String → String)
    (cache : List (String × String)) (rows : List (List Cell)) (i j : Nat)
    (h : cellAt rows (i, j) = some Cell.merged) :
    (i, j) ∉ (applySheet cache rows).map Prod.fst ∧
    (∀ w ∈ applySheet cache rows, ∃ v, cellAt rows w.1 = some (Cell.normal v)) ∧
    collectSheet tr (rows.map (fun r => r.filter (fun c => !(isMerged c)))) =
      collectSheet tr rows := by
  refine ⟨?_, ?_, collectSheet_filter_merged tr rows⟩
  · intro hmem
    simp only [List.mem_map] at hmem
    obtain ⟨w, hw, hww⟩ := hmem
    obtain ⟨v, hv, _⟩ := applySheet_mem cache rows w hw
    rw [hww, h] at hv
    exact Cell.noConfusion (Option.some_inj.1 hv)
  · intro w hw
    obtain ⟨v, hv, _⟩ := applySheet_mem cache rows w hw
    exact ⟨v, hv⟩

/-- Witness for C2 on a concrete sheet with a merged member at (0, 0):
no write targets that coordinate. -/
theorem C2_merged_members_not_written_instance :
    (0, 0) ∉
      (applySheet [("a", "b")]
        [[Cell.merged, Cell.normal (CellValue.str "a")]]).map Prod.fst :=
  (C2_merged_members_not_written (fun s => s) [("a", "b")]
    [[Cell.merged, Cell.normal (CellValue.str "a")]] 0 0 (by decide)).1

/-- C3: round-trip restoration of structure. With column widths, row
heights and merge ranges captured from the source sheet's dimension
records before mutation, after the restore phases the target's width
(resp. height) at each captured identifier equals the captured value
whenever that value is set, while identifiers captured as None keep the
target's default; and the target's merge list equals the captured list
minus exactly the ranges whose re-merge raised (all of it when nothing
raises). -/
theorem C3_structure_roundtrip {W H : Type}
    (colDims : List (String × ColDim W)) (rowDims : List (Nat × RowDim H))
    (M : List String) (fails : String → Bool)
    (tgtW : String → Option W) (tgtH : Nat → Option H)
    (hW : (colDims.map Prod.fst).Nodup) (hH : (rowDims.map Prod.fst).Nodup) :
    (∀ c d w, (c, d) ∈ colDims → d.width = some w →
      restoreWidths (captureColumnWidths colDims) tgtW c = some w) ∧
    (∀ c d, (c, d) ∈ colDims → d.width = none →
      restoreWidths (captureColumnWidths colDims) tgtW c = tgtW c) ∧
    (∀ r d h, (r, d) ∈ rowDims → d.height = some h →
      restoreHeights (captureRowHeights rowDims) tgtH r = some h) ∧
    (∀ r d, (r, d) ∈ rowDims → d.height = none →
      restoreHeights (captureRowHeights rowDims) tgtH r = tgtH r) ∧
    restoreMerges fails M = M.filter (fun r => !(fails r)) ∧
    ((∀ r ∈ M, fails r = false) → restoreMerges fails M = M) := by
  have hWk : ((captureColumnWidths colDims).map Prod.fst).Nodup := by
    rw [captureColumnWidths_keys]; exact hW
  have hHk : ((captureRowHeights rowDims).map Prod.fst).Nodup := by
    rw [captureRowHeights_keys]; exact hH
  refine ⟨?_, ?_, ?_, ?_, restoreMerges_eq_filter fails M, ?_⟩
  · intro c d w hm hd
    have hcap : (c, some w) ∈ captureColumnWidths colDims := by
      rw [← hd]
      unfold captureColumnWidths
      exact List.mem_map.2 ⟨(c, d), hm, rfl⟩
    exact restoreDims_some _ hWk tgtW c w hcap
  · intro c d hm hd
    have hcap : (c, (none : Option W)) ∈ captureColumnWidths colDims := by
      rw [← hd]
      unfold captureColumnWidths
      exact List.mem_map.2 ⟨(c, d), hm, rfl⟩
    exact restoreDims_none _ hWk tgtW c hcap
  · intro r d h hm hd
    have hcap : (r, some h) ∈ captureRowHeights rowDims := by
      rw [← hd]
      unfold captureRowHeights
      exact List.mem_map.2 ⟨(r, d), hm, rfl⟩
    exact restoreDims_some _ hHk tgtH r h hcap
  · intro r d hm hd
    have hcap : (r, (none : Option H)) ∈ captureRowHeights rowDims := by
      rw [← hd]
      unfold captureRowHeights
      exact List.mem_map.2 ⟨(r, d), hm, rfl⟩
    exact restoreDims_none _ hHk tgtH r hcap
  · intro hall
    rw [restoreMerges_eq_filter]
    refine List.filter_eq_self.2 ?_
    intro r hr
    rw [hall r hr]
    rfl

/-- Witness for C3 on concrete dimension records and merges: a set
width is restored, an unset width keeps the target default, a set
height is restored, and the failing merge range is dropped while the
other survives. -/
theorem C3_structure_roundtrip_instance :
    restoreWidths
      (captureColumnWidths
        [("A", ColDim.mk (some 5) false), ("B", ColDim.mk none true)])
      (fun _ => (none : Option Nat)) "A" = some 5 ∧
    restoreWidths
      (captureColumnWidths
        [("A", ColDim.mk (some 5) false), ("B", ColDim.mk none true)])
      (fun _ => (none : Option Nat)) "B" = none ∧
    restoreHeights (captureRowHeights [(1, RowDim.mk (some 9) false)])
      (fun _ => (some 3 : Option Nat)) 1 = some 9 ∧
    restoreMerges (fun r => r == "C1:C9") ["A1:B2", "C1:C9"] = ["A1:B2"] := by
  have h := C3_structure_roundtrip
    [("A", ColDim.mk (some 5) false), ("B", ColDim.mk (none : Option Nat) true)]
    [(1, RowDim.mk (some 9 : Option Nat) false)]
    ["A1:B2", "C1:C9"] (fun r => r == "C1:C9")
    (fun _ => none) (fun _ => some 3) (by decide) (by decide)
  refine ⟨h.1 "A" (ColDim.mk (some 5) false) 5 (by decide) rfl,
    h.2.1 "B" (ColDim.mk none true) (by decide) rfl,
    h.2.2.1 1 (RowDim.mk (some 9) false) 9 (by decide) rfl, ?_⟩
  rw [h.2.2.2.2.1]
  decide

/-- C4: when the remote translator raises on every one of the
max_retries attempts (for positive max_retries; the source default is
3), safe_translate makes exactly max_retries remote calls, prints the
warning, and returns the original text unchanged — its total return
type reflecting that no exception reaches the caller; consequently the
target cell holding that text receives the original text in the apply
phase. -/
theorem C4_exhaustion_passthrough (translator : Nat → Option String)
    (text : String) (max_retries : Int) (delay : Nat)
    (hm : 0 < max_retries) (hf : ∀ k, translator k = none) :
    (safe_translate translator text max_retries delay).result = text ∧
    (safe_translate translator text max_retries delay).attempts =
      max_retries.toNat ∧
    (safe_translate translator text max_retries delay).warned = true ∧
    (∀ rows i j, cellAt rows (i, j) = some (Cell.normal (CellValue.str text)) →
      ((i, j), CellValue.str text) ∈
        applySheet
          (sheetCache
            (fun s => (safe_translate translator s max_retries delay).result)
            rows)
          rows) := by
  have hfuel : 0 < max_retries.toNat := by omega
  have h := safe_translateGo_all_fail translator text delay hf max_retries.toNat
    hfuel 0
  refine ⟨h.1, h.2.1, h.2.2, ?_⟩
  intro rows i j hc
  have hid : ∀ s : String,
      (safe_translate translator s max_retries delay).result = s :=
    fun s => (safe_translateGo_all_fail translator s delay hf max_retries.toNat
      hfuel 0).1
  have hcache : ∀ e ∈ sheetCache
      (fun s => (safe_translate translator s max_retries delay).result) rows,
      e.2 = e.1 := by
    intro e he
    rw [sheetCache_entries _ rows e he]
    exact hid e.1
  have h2 := applySheet_mem_of
    (sheetCache (fun s => (safe_translate translator s max_retries delay).result)
      rows) rows i j (CellValue.str text) hc
  rwa [applyValue_passthrough _ text hcache] at h2

/-- Witness for C4: a translator raising on every attempt, text "Erro",
max_retries 3 — three attempts are made, the warning fires, "Erro" is
returned, and the target cell keeps "Erro". -/
theorem C4_exhaustion_passthrough_instance :
    (safe_translate (fun _ => none) "Erro" 3 1).result = "Erro" ∧
    (safe_translate (fun _ => none) "Erro" 3 1).attempts = 3 ∧
    (safe_translate (fun _ => none) "Erro" 3 1).warned = true ∧
    ((0, 0), CellValue.str "Erro") ∈
      applySheet
        (sheetCache (fun s => (safe_translate (fun _ => none) s 3 1).result)
          [[Cell.normal (CellValue.str "Erro")]])
        [[Cell.normal (CellValue.str "Erro")]] := by
  have h := C4_exhaustion_passthrough (fun _ => none) "Erro" 3 1 (by decide)
    (fun _ => rfl)
  exact ⟨h.1, h.2.1, h.2.2.1, h.2.2.2 [[Cell.normal (CellValue.str "Erro")]]
    0 0 (by decide)⟩

/-- C5: a non-merged source cell whose value is not a string with
non-whitespace content has its value written verbatim to the target
cell at the same coordinate (and no other value is written there), and
the collect pass leaves its state — cache and call log — unchanged on
such a cell. -/
theorem C5_non_strings_copied (tr : String → String)
    (cache : List (String × String)) (rows : List (List Cell))
    (acc : List (String × String) × List String) (i j : Nat) (v : CellValue)
    (h1 : cellAt rows (i, j) = some (Cell.normal v))
    (h2 : needsTranslation v = false) :
    ((i, j), v) ∈ applySheet cache rows ∧
    (∀ w ∈ applySheet cache rows, w.1 = (i, j) → w.2 = v) ∧
    collectStep tr acc (Cell.normal v) = acc := by
  refine ⟨?_, ?_, collectStep_not_string tr acc v h2⟩
  · have h := applySheet_mem_of cache rows i j v h1
    rwa [applyValue_not_string cache v h2] at h
  · intro w hw hww
    obtain ⟨v2, hv2, heq⟩ := applySheet_mem cache rows w hw
    rw [hww, h1] at hv2
    have hvv : v2 = v := Cell.normal.inj (Option.some_inj.1 hv2).symm
    rw [heq, hvv]
    exact applyValue_not_string cache v h2

/-- Witness for C5 on a concrete sheet: the number 42 and a
whitespace-only string pass through verbatim, untranslated and
uncached. -/
theorem C5_non_strings_copied_instance :
    ((0, 0), CellValue.int 42) ∈
      applySheet [("x", "y")]
        [[Cell.normal (CellValue.int 42), Cell.normal (CellValue.str "  ")]] ∧
    ((0, 1), CellValue.str "  ") ∈
      applySheet [("x", "y")]
        [[Cell.normal (CellValue.int 42), Cell.normal (CellValue.str "  ")]] ∧
    collectStep (fun s => s) ([], []) (Cell.normal (CellValue.str "  ")) =
      ([], []) := by
  have ha := C5_non_strings_copied (fun s => s) [("x", "y")]
    [[Cell.normal (CellValue.int 42), Cell.normal (CellValue.str "  ")]]
    ([], []) 0 0 (CellValue.int 42) (by decide) (by decide)
  have hb := C5_non_strings_copied (fun s => s) [("x", "y")]
    [[Cell.normal (CellValue.int 42), Cell.normal (CellValue.str "  ")]]
    ([], []) 0 1 (CellValue.str "  ") (by decide) (by decide)
  exact ⟨ha.1, hb.1, hb.2.2⟩

/-- C6: safe_translate's sleep schedule. When the first j attempts
raise and attempt j succeeds within the retry budget, the recorded
sleeps are the linear backoffs delay * (k + 1), one per failed attempt
k, followed by the fixed delay slept after the successful call before
returning; the translated text is returned after j + 1 remote calls.
For j = 1 (fail once, then succeed) this is exactly one backoff sleep
of delay * 1 before the successful retry. -/
theorem C6_sleep_schedule (translator : Nat → Option String)
    (t text : String) (max_retries : Int) (delay j : Nat)
    (hj : j < max_retries.toNat)
    (hfail : ∀ k, k < j → translator k = none)
    (hsucc : translator j = some t) :
    (safe_translate translator text max_retries delay).sleeps =
      (List.range j).map (fun k => delay * (k + 1)) ++ [delay] ∧
    (safe_translate translator text max_retries delay).result = t ∧
    (safe_translate translator text max_retries delay).attempts = j + 1 := by
  have h := safe_translateGo_succeeds translator t text delay j 0
    max_retries.toNat hj (fun k hk => by simpa using hfail k hk)
    (by simpa using hsucc)
  unfold safe_translate
  rw [h]
  refine ⟨?_, rfl, rfl⟩
  simp

/-- Witness for C6: with delay 7 and a translator that raises on
attempt 0 and succeeds on attempt 1, the sleeps are the single backoff
7 * 1 followed by the post-success 7, the result is the translation,
and two attempts were made. -/
theorem C6_sleep_schedule_instance :
    (safe_translate (fun k => if k = 0 then none else some "T") "x" 3 7).sleeps =
      [7, 7] ∧
    (safe_translate (fun k => if k = 0 then none else some "T") "x" 3 7).result =
      "T" ∧
    (safe_translate (fun k => if k = 0 then none else some "T") "x" 3 7).attempts =
      2 := by
  have h := C6_sleep_schedule (fun k => if k = 0 then none else some "T")
    "T" "x" 3 7 1 (by decide)
    (fun k hk => by
      have hk0 : k = 0 := by omega
      subst hk0
      rfl)
    rfl
  exact ⟨by rw [h.1]; decide, h.2.1, h.2.2⟩

/-- C7: any exception during per-sheet processing aborts the whole job
— the sheet loop stops at the first failing sheet with its error, the
remaining sheets are never processed (the outcome does not depend on
them) — and the job-level handler then removes the output file, so it
no longer exists. -/
theorem C7_abort_deletes_output {S E : Type} (step : S → Except E Unit)
    (pre post : List S) (bad : S) (e : E) (outputExists : Bool)
    (hpre : ∀ s ∈ pre, step s = Except.ok ())
    (hbad : step bad = Except.error e) :
    processAllSheets step (pre ++ bad :: post) = Except.error e ∧
    translateJobOutput step (pre ++ bad :: post) outputExists = false := by
  have h := processAllSheets_abort step e bad hbad pre post hpre
  exact ⟨h, by simp [translateJobOutput, cleanupOnError, h]⟩

/-- Witness for C7: sheet 1 of three fails; the loop yields its error
and the output file is gone, even though it existed after the earlier
save. -/
theorem C7_abort_deletes_output_instance :
    processAllSheets
      (fun n : Nat => if n = 0 then Except.ok () else Except.error "boom")
      [0, 1, 2] = Except.error "boom" ∧
    translateJobOutput
      (fun n : Nat => if n = 0 then Except.ok () else Except.error "boom")
      [0, 1, 2] true = false := by
  have h := C7_abort_deletes_output
    (fun n : Nat => if n = 0 then Except.ok () else Except.error "boom")
    [0] [2] 1 "boom" true
    (fun s hs => by
      have hs0 : s = 0 := by simpa using hs
      subst hs0
      rfl)
    rfl
  exact h

/-- C8: when re-applying one captured merge range raises, that range is
skipped while the remaining ranges before and after it are still
processed — the restoration total function returns normally, so the
exception does not propagate to the sheet or the job. -/
theorem C8_merge_failure_skipped (fails : String → Bool) (r : String)
    (rs1 rs2 : List String) (hr : fails r = true) :
    restoreMerges fails (rs1 ++ r :: rs2) =
      restoreMerges fails rs1 ++ restoreMerges fails rs2 := by
  simp [restoreMerges_eq_filter, List.filter_append, List.filter_cons, hr]

/-- Witness for C8: the failing range "BAD" between "A1:B2" and
"C3:D4" is skipped; both neighbours are restored. -/
theorem C8_merge_failure_skipped_instance :
    restoreMerges (fun r => r == "BAD") ["A1:B2", "BAD", "C3:D4"] =
      restoreMerges (fun r => r == "BAD") ["A1:B2"] ++
        restoreMerges (fun r => r == "BAD") ["C3:D4"] :=
  C8_merge_failure_skipped (fun r => r == "BAD") "BAD" ["A1:B2"] ["C3:D4"]
    (by decide)

/-- C9 counterexample: the captured columnWidths mapping does not omit
every column whose width is unset. A column possessing a dimension
record (here: hidden) but no width is captured with value None instead
of being omitted; the restoration loop's None-check (main.py line 160)
exists precisely because of such entries. -/
theorem C9_capture_counterexample :
    (ColDim.mk (none : Option Nat) true).width = none ∧
    "A" ∈ (captureColumnWidths
      [("A", ColDim.mk (none : Option Nat) true)]).map Prod.fst ∧
    (RowDim.mk (none : Option Nat) true).height = none ∧
    2 ∈ (captureRowHeights
      [(2, RowDim.mk (none : Option Nat) true)]).map Prod.fst := by
  refine ⟨rfl, ?_, rfl, ?_⟩
  · simp [captureColumnWidths]
  · simp [captureRowHeights]

/-- C9 (amended): the captured columnWidths mapping contains an entry
for every column possessing a dimension record — its value being that
record's width, which may itself be None — and omits exactly the
columns with no dimension record; in particular every column with an
explicitly set width is captured with it. Likewise for rowHeights. -/
theorem C9_capture_amended {W H : Type} (colDims : List (String × ColDim W))
    (rowDims : List (Nat × RowDim H)) :
    (captureColumnWidths colDims).map Prod.fst = colDims.map Prod.fst ∧
    (∀ c d, (c, d) ∈ colDims → (c, d.width) ∈ captureColumnWidths colDims) ∧
    (captureRowHeights rowDims).map Prod.fst = rowDims.map Prod.fst ∧
    (∀ r d, (r, d) ∈ rowDims → (r, d.height) ∈ captureRowHeights rowDims) := by
  refine ⟨captureColumnWidths_keys colDims, ?_, captureRowHeights_keys rowDims, ?_⟩
  · intro c d hm
    unfold captureColumnWidths
    exact List.mem_map.2 ⟨(c, d), hm, rfl⟩
  · intro r d hm
    unfold captureRowHeights
    exact List.mem_map.2 ⟨(r, d), hm, rfl⟩

/-- Witness for the amended C9 on concrete dimension records: keys are
preserved and the set width 5 is captured for its column. -/
theorem C9_capture_amended_instance :
    (captureColumnWidths
      [("A", ColDim.mk (some 5) false), ("B", ColDim.mk (none : Option Nat) true)]).map
        Prod.fst = ["A", "B"] ∧
    ("A", some 5) ∈ captureColumnWidths
      [("A", ColDim.mk (some 5) false), ("B", ColDim.mk (none : Option Nat) true)] := by
  have h := C9_capture_amended
    [("A", ColDim.mk (some 5 : Option Nat) false), ("B", ColDim.mk none true)]
    ([] : List (Nat × RowDim Nat))
  exact ⟨by rw [h.1]; decide,
    h.2.1 "A" (ColDim.mk (some 5) false) (by decide)⟩

/-- C10: calling safe_translate with a non-positive max_retries runs
the loop body zero times: the remote translator is never invoked, no
sleep occurs, no warning fires, and the original text is returned
unchanged (the trailing return after the loop). -/
theorem C10_nonpositive_retries (translator : Nat → Option String)
    (text : String) (max_retries : Int) (delay : Nat)
    (hm : max_retries ≤ 0) :
    safe_translate translator text max_retries delay =
      ⟨text, 0, [], false⟩ := by
  unfold safe_translate
  rw [Int.toNat_of_nonpos hm]
  rfl

/-- Witness for C10 at max_retries = -2: a translator that would
succeed is never consulted and "x" comes back untouched. -/
theorem C10_nonpositive_retries_instance :
    safe_translate (fun _ => some "y") "x" (-2) 5 =
      ⟨"x", 0, [], false⟩ :=
  C10_nonpositive_retries (fun _ => some "y") "x" (-2) 5 (by decide)

end Translate
